import Mathlib

/-!
Verification of the ATSAC video pipeline (`pipeline.py`).

The development shallowly embeds the program: manifest handling
(`check_manifest`, `add_to_manifest`), the two stage handlers (`process`,
`upload`) as sequences of filesystem actions over an explicit store, the
polling path source (`PathsSource.do_poll` / `start`), and the upload
pipeline glue (`do_upload`). Strings model Python strings; `Option String`
models a remote resource that may be absent; store contents are maps from
path strings to optional file contents. Fallible filesystem operations
(fetching or removing a missing file) return `none`, modelling the fatal
exception that would terminate the Python process.
-/

/-! ### Newline splitting and joining

`splitNl` models Python's `str.split("\n")` (on the character list of the
string) and `joinNl` models `"\n".join(...)`. -/

/-- Model of Python `s.split("\n")` on a character list: splits at every
newline character, keeping empty pieces, and yields `[[]]` on the empty
string. -/
def splitNl : List Char → List (List Char)
  | [] => [[]]
  | c :: cs =>
    if c = '\n' then [] :: splitNl cs
    else
      match splitNl cs with
      | [] => [[c]]
      | t :: ts => (c :: t) :: ts

/-- Lines of a manifest file body: Python `content.split("\n")`. -/
def manifestLines (s : String) : List String :=
  (splitNl s.data).map (fun l => ⟨l⟩)

/-- Model of Python `"\n".join(l)`. -/
def joinNl : List String → String
  | [] => ""
  | [s] => s
  | s :: t :: rest => s ++ "\n" ++ joinNl (t :: rest)

/-- A string with no embedded newline character. -/
def nlFree (s : String) : Prop := '\n' ∉ s.data

instance (s : String) : Decidable (nlFree s) :=
  inferInstanceAs (Decidable ('\n' ∉ s.data))

/-- Computable decision procedure for the lexicographic order on strings
(the order Python's `sorted` uses on `str`), going through the character
lists so that it evaluates by kernel reduction. -/
def decLeStr : DecidableRel (fun a b : String => a ≤ b) := fun a b =>
  decidable_of_iff (a.toList ≤ b.toList) String.le_iff_toList_le.symm

instance (priority := 2000) : DecidableRel (fun a b : String => a ≤ b) := decLeStr

/-! ### Path helpers (models of `os.path`) -/

/-- Model of `os.path.basename` for POSIX paths: the part after the last
slash. -/
def baseName (p : String) : String :=
  ⟨(p.data.reverse.takeWhile (fun c => c ≠ '/')).reverse⟩

/-- Model of `os.path.join` for two POSIX path components. -/
def joinPath (a b : String) : String :=
  if b.data.head? = some '/' then b
  else if a = "" then b
  else if a.data.getLast? = some '/' then a ++ b
  else a ++ "/" ++ b

/-- Model of `os.path.splitext`: splits off the extension beginning at the
last dot of the basename, unless every character of the basename before
that dot is itself a dot. -/
def splitExt (p : String) : String × String :=
  let b := (baseName p).data
  let r := b.reverse
  let afterDot := r.takeWhile (fun c => c ≠ '.')
  if afterDot.length = r.length then (p, "")
  else
    let stemRev := r.drop (afterDot.length + 1)
    if stemRev.all (fun c => c = '.') then (p, "")
    else
      (⟨p.data.take (p.data.length - (stemRev.length + 1 + afterDot.length)) ++
          stemRev.reverse⟩,
        ⟨'.' :: afterDot.reverse⟩)

/-! ### Manifest operations (`check_manifest`, `add_to_manifest`)

A manifest resource is `Option String`: `none` when the resource does not
exist (`mf.fs.exists(manifest)` is false), `some c` when it exists with
body `c`. Python's `set(...)` of the lines is modelled by `List.dedup`,
`set.add` by `List.insert`, and `sorted(...)` by `List.insertionSort`. -/

/-- Model of `check_manifest`: returns `true` ("not yet handled") when the
manifest resource does not exist, otherwise tests that the path is not
among the newline-separated lines of the manifest body. It is a total
function: a missing resource is not an error. -/
def check_manifest (p : String) (mf : Option String) : Bool :=
  match mf with
  | none => true
  | some content => decide (p ∉ (manifestLines content).dedup)

/-- The set (as a deduplicated list) that `add_to_manifest` serializes:
`{p}` when the manifest is absent, otherwise the line set of the existing
body with `p` inserted. -/
def addContent (p : String) (mf : Option String) : List String :=
  match mf with
  | none => [p]
  | some c => ((manifestLines c).dedup).insert p

/-- Model of `add_to_manifest`: read the manifest (or start from `{p}` if
absent), insert `p` into the line set, and write back the sorted,
newline-joined serialization. Returns the new manifest body. -/
def add_to_manifest (p : String) (mf : Option String) : String :=
  joinNl (List.insertionSort (· ≤ ·) (addContent p mf))

/-- Modelled from the spec: `Manifest.Contains(path)` — membership of the
path in the manifest's line set, failing open (`false`) when the manifest
resource does not exist. The source exposes this only through the negated
`check_manifest`. -/
def manifestContains (mf : Option String) (p : String) : Bool :=
  match mf with
  | none => false
  | some c => decide (p ∈ (manifestLines c).dedup)

/-- Folding `add_to_manifest` over a list of paths, as successive calls of
the handler's manifest write would do. -/
def foldAdds (ps : List String) (mf : Option String) : Option String :=
  ps.foldl (fun m q => some (add_to_manifest q m)) mf

/-! ### Basic lemmas about splitting and joining -/

theorem splitNl_ne_nil (l : List Char) : splitNl l ≠ [] := by
  induction l with
  | nil => simp [splitNl]
  | cons c cs ih =>
    simp only [splitNl]
    split
    · simp
    · cases h : splitNl cs with
      | nil => simp
      | cons t ts => simp

theorem splitNl_append_newline (a b : List Char) :
    splitNl (a ++ '\n' :: b) = splitNl a ++ splitNl b := by
  induction a with
  | nil => simp [splitNl]
  | cons c cs ih =>
    by_cases h : c = '\n'
    · subst h
      simp [splitNl, ih]
    · cases hs : splitNl cs with
      | nil => exact absurd hs (splitNl_ne_nil cs)
      | cons t ts =>
        rw [List.cons_append]
        simp only [splitNl, if_neg h]
        rw [ih, hs]
        simp

theorem splitNl_of_nlFree (l : List Char) (h : '\n' ∉ l) : splitNl l = [l] := by
  induction l with
  | nil => simp [splitNl]
  | cons c cs ih =>
    simp only [List.mem_cons, not_or] at h
    simp only [splitNl, if_neg (Ne.symm h.1), ih h.2]

theorem nlFree_of_mem_splitNl (l : List Char) (x : List Char) (hx : x ∈ splitNl l) :
    '\n' ∉ x := by
  induction l generalizing x with
  | nil =>
    simp only [splitNl, List.mem_singleton] at hx
    subst hx; simp
  | cons c cs ih =>
    simp only [splitNl] at hx
    split at hx
    · rcases List.mem_cons.mp hx with h | h
      · subst h; simp
      · exact ih x h
    · rename_i hc
      cases hs : splitNl cs with
      | nil => exact absurd hs (splitNl_ne_nil cs)
      | cons t ts =>
        rw [hs] at hx
        rcases List.mem_cons.mp hx with h | h
        · subst h
          intro hmem
          rcases List.mem_cons.mp hmem with h' | h'
          · exact hc h'.symm
          · exact ih t (by rw [hs]; exact List.mem_cons_self t ts) h'
        · exact ih x (by rw [hs]; exact List.mem_cons_of_mem t h)

theorem manifestLines_ne_nil (s : String) : manifestLines s ≠ [] := by
  simp only [manifestLines, ne_eq, List.map_eq_nil_iff]
  exact splitNl_ne_nil s.data

theorem nlFree_of_mem_manifestLines (s : String) (x : String)
    (hx : x ∈ manifestLines s) : nlFree x := by
  simp only [manifestLines, List.mem_map] at hx
  obtain ⟨l, hl, rfl⟩ := hx
  exact nlFree_of_mem_splitNl s.data l hl

theorem manifestLines_joinNl (L : List String) (hne : L ≠ [])
    (hnl : ∀ x ∈ L, nlFree x) : manifestLines (joinNl L) = L := by
  induction L with
  | nil => exact absurd rfl hne
  | cons x rest ih =>
    cases rest with
    | nil =>
      have hx : nlFree x := hnl x (by simp)
      simp only [joinNl, manifestLines]
      rw [splitNl_of_nlFree x.data hx]
      simp
    | cons y ys =>
      have hx : nlFree x := hnl x (by simp)
      have hdata : (x ++ "\n" ++ joinNl (y :: ys)).data =
          x.data ++ '\n' :: (joinNl (y :: ys)).data := by
        simp [String.data_append]
      simp only [joinNl, manifestLines, hdata, splitNl_append_newline,
        splitNl_of_nlFree x.data hx, List.map_append]
      have ihr : manifestLines (joinNl (y :: ys)) = y :: ys :=
        ih (by simp) (fun z hz => hnl z (List.mem_cons_of_mem x hz))
      simp only [manifestLines] at ihr
      simp [ihr]

/-! ### The line set of a manifest

`MInv mf M` states that the manifest resource `mf` represents exactly the
finite set `M` of paths: absent iff `M` is empty, otherwise a sorted,
duplicate-free, newline-joined listing of `M`. Every manifest the program
writes satisfies this invariant. -/

/-- Relation between a manifest resource and the abstract set it stores. -/
def MInv (mf : Option String) (M : Finset String) : Prop :=
  match mf with
  | none => M = ∅
  | some c => (manifestLines c).Nodup ∧ List.Sorted (· ≤ ·) (manifestLines c) ∧
      (manifestLines c).toFinset = M

theorem addContent_nodup (q : String) (mf : Option String) :
    (addContent q mf).Nodup := by
  cases mf with
  | none => simp [addContent]
  | some c => exact (List.nodup_dedup (manifestLines c)).insert

theorem mem_addContent (x q : String) (mf : Option String) :
    x ∈ addContent q mf ↔ x = q ∨ ∃ c, mf = some c ∧ x ∈ manifestLines c := by
  cases mf with
  | none => simp [addContent]
  | some c => simp [addContent, List.mem_insert_iff, List.mem_dedup]

theorem self_mem_addContent (q : String) (mf : Option String) :
    q ∈ addContent q mf := by
  rw [mem_addContent]
  exact Or.inl rfl

theorem addContent_nlFree (q : String) (mf : Option String) (hq : nlFree q) :
    ∀ x ∈ addContent q mf, nlFree x := by
  intro x hx
  rcases (mem_addContent x q mf).mp hx with h | ⟨c, _, hc⟩
  · exact h ▸ hq
  · exact nlFree_of_mem_manifestLines c x hc

theorem addContent_ne_nil (q : String) (mf : Option String) :
    addContent q mf ≠ [] :=
  List.ne_nil_of_mem (self_mem_addContent q mf)

theorem manifestLines_add (q : String) (mf : Option String) (hq : nlFree q) :
    manifestLines (add_to_manifest q mf) =
      List.insertionSort (· ≤ ·) (addContent q mf) := by
  apply manifestLines_joinNl
  · intro h
    have hp : List.Perm (addContent q mf) [] :=
      h ▸ (List.perm_insertionSort (· ≤ ·) (addContent q mf)).symm
    exact addContent_ne_nil q mf hp.eq_nil
  · intro x hx
    exact addContent_nlFree q mf hq x ((List.mem_insertionSort _).mp hx)

theorem mem_manifestLines_add (x q : String) (mf : Option String) (hq : nlFree q) :
    x ∈ manifestLines (add_to_manifest q mf) ↔ x ∈ addContent q mf := by
  rw [manifestLines_add q mf hq]
  exact List.mem_insertionSort _

theorem MInv_none : MInv none ∅ := rfl

theorem MInv_add (mf : Option String) (M : Finset String) (q : String)
    (h : MInv mf M) (hq : nlFree q) :
    MInv (some (add_to_manifest q mf)) (insert q M) := by
  refine ⟨?_, ?_, ?_⟩
  · rw [manifestLines_add q mf hq]
    exact (List.perm_insertionSort (· ≤ ·) (addContent q mf)).symm.nodup
      (addContent_nodup q mf)
  · rw [manifestLines_add q mf hq]
    exact List.sorted_insertionSort _ _
  · ext x
    rw [List.mem_toFinset, mem_manifestLines_add x q mf hq, mem_addContent,
      Finset.mem_insert]
    cases mf with
    | none =>
      simp only [MInv] at h
      subst h
      simp
    | some c =>
      obtain ⟨-, -, hts⟩ := h
      subst hts
      simp [List.mem_toFinset]

theorem MInv_check (mf : Option String) (M : Finset String) (q : String)
    (h : MInv mf M) : check_manifest q mf = decide (q ∉ M) := by
  cases mf with
  | none =>
    simp only [MInv] at h
    subst h
    simp [check_manifest]
  | some c =>
    obtain ⟨-, -, hts⟩ := h
    subst hts
    simp [check_manifest, List.mem_dedup, List.mem_toFinset]

theorem MInv_contains (mf : Option String) (M : Finset String) (q : String)
    (h : MInv mf M) : manifestContains mf q = decide (q ∈ M) := by
  cases mf with
  | none =>
    simp only [MInv] at h
    subst h
    simp [manifestContains]
  | some c =>
    obtain ⟨-, -, hts⟩ := h
    subst hts
    simp [manifestContains, List.mem_dedup, List.mem_toFinset]

theorem MInv_count (c : String) (M : Finset String) (q : String)
    (h : MInv (some c) M) (hq : q ∈ M) : (manifestLines c).count q = 1 := by
  obtain ⟨hnd, -, hts⟩ := h
  exact List.count_eq_one_of_mem hnd (by rw [← List.mem_toFinset, hts]; exact hq)

theorem manifestContains_add_self (q : String) (mf : Option String)
    (hq : nlFree q) : manifestContains (some (add_to_manifest q mf)) q = true := by
  simp only [manifestContains, decide_eq_true_eq, List.mem_dedup]
  exact (mem_manifestLines_add q q mf hq).mpr (self_mem_addContent q mf)

theorem manifestContains_add_mono (x q : String) (mf : Option String)
    (hq : nlFree q) (h : manifestContains mf x = true) :
    manifestContains (some (add_to_manifest q mf)) x = true := by
  cases mf with
  | none => simp [manifestContains] at h
  | some c =>
    simp only [manifestContains, decide_eq_true_eq, List.mem_dedup] at h ⊢
    exact (mem_manifestLines_add x q (some c) hq).mpr
      ((mem_addContent x q (some c)).mpr (Or.inr ⟨c, rfl, h⟩))

/-! ### The filesystem store and the stage handlers

`Store` models the world the handlers touch: the remote filesystem
(`files`, path to optional content), the manifest resource, and the local
`/tmp` scratch space (`lfiles`). The body of `process` and of `upload` is
translated, statement by statement, into a list of primitive actions;
`applyAction` gives each primitive its semantics. An operation on a
missing file yields `none` (the uncaught Python exception). -/

/-- Remote store, manifest resource and local scratch space. -/
structure Store where
  files : String → Option String
  manifest : Option String
  lfiles : String → Option String

/-- Result of `subprocess.run(["automated-walk-bike-counter", ...], capture_output=True, check=False)`:
the exit status, the captured standard output, and the content of the CSV
file the external tool writes next to its input. -/
structure CmdResult where
  exitCode : Int
  stdout : String
  csv : String
deriving DecidableEq

/-- One primitive filesystem statement of a stage handler body. -/
inductive PAction where
  | fsGet (remote lcl : String)
  | runCmd (csvPath : String) (res : CmdResult)
  | manifestAdd (p : String)
  | fsWrite (remote content : String)
  | fsUpload (lcl remote : String)
  | osRemove (lcl : String)
  | fsRm (remote : String)
deriving DecidableEq

/-- Semantics of one primitive action on the store. `fsGet` is
`of.fs.get(of.path, local)`; `runCmd` runs the external tool, which writes
its CSV next to the input (its exit status is carried along but never
consulted, mirroring `check=False`); `manifestAdd` is `add_to_manifest`;
`fsWrite` is `of.fs.open(..., "wb").write(...)`; `fsUpload` is
`fs.upload(local, remote)`; `osRemove` is `os.remove`; `fsRm` is
`of.fs.rm(of.path)`. -/
def applyAction (st : Store) : PAction → Option Store
  | PAction.fsGet r l => (st.files r).map fun c =>
      { st with lfiles := Function.update st.lfiles l (some c) }
  | PAction.runCmd csvPath res => some
      { st with lfiles := Function.update st.lfiles csvPath (some res.csv) }
  | PAction.manifestAdd q => some
      { st with manifest := some (add_to_manifest q st.manifest) }
  | PAction.fsWrite r content => some
      { st with files := Function.update st.files r (some content) }
  | PAction.fsUpload l r => (st.lfiles l).map fun c =>
      { st with files := Function.update st.files r (some c) }
  | PAction.osRemove l => (st.lfiles l).map fun _ =>
      { st with lfiles := Function.update st.lfiles l none }
  | PAction.fsRm r => (st.files r).map fun _ =>
      { st with files := Function.update st.files r none }

/-- Local scratch path of a handled file: `os.path.join("/tmp", os.path.basename(of.path))`. -/
def tmpLocal (p : String) : String := joinPath "/tmp" (baseName p)

/-- Local CSV path: `os.path.splitext(local)[0] + ".csv"`. -/
def csvLocal (p : String) : String := (splitExt (tmpLocal p)).fst ++ ".csv"

/-- The body of `process(of, manifest)`, in source order: download, run the
external command, mark the manifest, push log and CSV, remove the two
local scratch files, remove the remote source. -/
def processActions (p : String) (res : CmdResult) : List PAction :=
  [PAction.fsGet p (tmpLocal p),
   PAction.runCmd (csvLocal p) res,
   PAction.manifestAdd p,
   PAction.fsWrite ((splitExt p).fst ++ ".log") res.stdout,
   PAction.fsUpload (csvLocal p) ((splitExt p).fst ++ ".csv"),
   PAction.osRemove (tmpLocal p),
   PAction.osRemove (csvLocal p),
   PAction.fsRm p]

/-- Running the whole `process` handler. -/
def processRun (p : String) (res : CmdResult) (st : Store) : Option Store :=
  (processActions p res).foldlM applyAction st

/-- Running the first `n` statements of the `process` handler: the states
reachable inside a handler invocation (a crash stops the run midway). -/
def processRunUpTo (p : String) (res : CmdResult) (st : Store) (n : Nat) : Option Store :=
  ((processActions p res).take n).foldlM applyAction st

/-- The body of `upload(of, dst, manifest)`, in source order: download,
push to the destination, mark the manifest. No cleanup statement occurs. -/
def uploadActions (p dst : String) : List PAction :=
  [PAction.fsGet p (tmpLocal p),
   PAction.fsUpload (tmpLocal p) (joinPath dst (baseName p)),
   PAction.manifestAdd p]

/-- Running the whole `upload` handler. -/
def uploadRun (p dst : String) (st : Store) : Option Store :=
  (uploadActions p dst).foldlM applyAction st

/-! ### Execution lemmas for handler action sequences -/

theorem update_some_isSome (f : String → Option String) (a : String)
    (v : String) (b : String) (h : (f b).isSome) :
    ((Function.update f a (some v)) b).isSome := by
  by_cases hb : b = a
  · subst hb
    simp [Function.update_same]
  · rwa [Function.update_noteq hb]

theorem applyAction_manifest_const (st st' : Store) (a : PAction)
    (h : applyAction st a = some st')
    (hna : ∀ q, a ≠ PAction.manifestAdd q) : st'.manifest = st.manifest := by
  cases a with
  | fsGet r l =>
    rcases Option.map_eq_some'.mp h with ⟨c, -, rfl⟩
    rfl
  | runCmd csvPath res =>
    cases h
    rfl
  | manifestAdd q => exact absurd rfl (hna q)
  | fsWrite r content =>
    cases h
    rfl
  | fsUpload l r =>
    rcases Option.map_eq_some'.mp h with ⟨c, -, rfl⟩
    rfl
  | osRemove l =>
    rcases Option.map_eq_some'.mp h with ⟨c, -, rfl⟩
    rfl
  | fsRm r =>
    rcases Option.map_eq_some'.mp h with ⟨c, -, rfl⟩
    rfl

theorem foldlM_manifest_const (l : List PAction)
    (hna : ∀ a ∈ l, ∀ q, a ≠ PAction.manifestAdd q) (st st' : Store)
    (h : l.foldlM applyAction st = some st') : st'.manifest = st.manifest := by
  induction l generalizing st with
  | nil =>
    simp only [List.foldlM_nil] at h
    cases h
    rfl
  | cons a rest ih =>
    rw [List.foldlM_cons] at h
    rcases Option.bind_eq_some.mp h with ⟨st1, h1, h2⟩
    rw [ih (fun b hb => hna b (List.mem_cons_of_mem a hb)) st1 h2]
    exact applyAction_manifest_const st st1 a h1 (hna a (List.mem_cons_self a rest))

theorem applyAction_files_isSome (st st' : Store) (a : PAction) (q : String)
    (h : applyAction st a = some st') (hna : ∀ r, a ≠ PAction.fsRm r)
    (hs : (st.files q).isSome) : (st'.files q).isSome := by
  cases a with
  | fsGet r l =>
    rcases Option.map_eq_some'.mp h with ⟨c, -, rfl⟩
    exact hs
  | runCmd csvPath res =>
    cases h
    exact hs
  | manifestAdd p =>
    cases h
    exact hs
  | fsWrite r content =>
    cases h
    exact update_some_isSome st.files r content q hs
  | fsUpload l r =>
    rcases Option.map_eq_some'.mp h with ⟨c, -, rfl⟩
    exact update_some_isSome st.files r c q hs
  | osRemove l =>
    rcases Option.map_eq_some'.mp h with ⟨c, -, rfl⟩
    exact hs
  | fsRm r => exact absurd rfl (hna r)

theorem foldlM_files_isSome (l : List PAction)
    (hna : ∀ a ∈ l, ∀ r, a ≠ PAction.fsRm r) (q : String) (st st' : Store)
    (h : l.foldlM applyAction st = some st') (hs : (st.files q).isSome) :
    (st'.files q).isSome := by
  induction l generalizing st with
  | nil =>
    simp only [List.foldlM_nil] at h
    cases h
    exact hs
  | cons a rest ih =>
    rw [List.foldlM_cons] at h
    rcases Option.bind_eq_some.mp h with ⟨st1, h1, h2⟩
    exact ih (fun b hb => hna b (List.mem_cons_of_mem a hb)) st1 h2
      (applyAction_files_isSome st st1 a q h1 (hna a (List.mem_cons_self a rest)) hs)

theorem uploadRun_eq (p dst : String) (st : Store) (c : String)
    (hsrc : st.files p = some c) :
    uploadRun p dst st = some
      { files := Function.update st.files (joinPath dst (baseName p)) (some c),
        manifest := some (add_to_manifest p st.manifest),
        lfiles := Function.update st.lfiles (tmpLocal p) (some c) } := by
  simp [uploadRun, uploadActions, List.foldlM_cons, List.foldlM_nil, applyAction,
    hsrc, Function.update_same]

theorem uploadRun_src_exists (p dst : String) (st st' : Store)
    (h : uploadRun p dst st = some st') : ∃ c, st.files p = some c := by
  simp only [uploadRun, uploadActions, List.foldlM_cons, applyAction] at h
  rcases Option.bind_eq_some.mp h with ⟨st1, h1, -⟩
  rcases Option.map_eq_some'.mp h1 with ⟨c, hc, -⟩
  exact ⟨c, hc⟩

set_option maxHeartbeats 1600000 in
theorem processRun_eq (p : String) (res : CmdResult) (st : Store) (c : String)
    (hsrc : st.files p = some c) (hcl : csvLocal p ≠ tmpLocal p) :
    processRun p res st = some
      { files := Function.update (Function.update
            (Function.update st.files ((splitExt p).fst ++ ".log") (some res.stdout))
            ((splitExt p).fst ++ ".csv") (some res.csv)) p none,
        manifest := some (add_to_manifest p st.manifest),
        lfiles := Function.update (Function.update (Function.update
            (Function.update st.lfiles (tmpLocal p) (some c))
            (csvLocal p) (some res.csv)) (tmpLocal p) none) (csvLocal p) none } := by
  have hfp : (Function.update (Function.update st.files
      ((splitExt p).fst ++ ".log") (some res.stdout))
      ((splitExt p).fst ++ ".csv") (some res.csv) p).isSome :=
    update_some_isSome _ _ _ _ (update_some_isSome _ _ _ _ (by rw [hsrc]; rfl))
  rcases Option.isSome_iff_exists.mp hfp with ⟨v, hv⟩
  simp only [processRun, processActions, List.foldlM_cons, List.foldlM_nil,
    applyAction, hsrc, Option.map_some', Option.bind_eq_bind, Option.some_bind,
    Function.update_same, Function.update_noteq hcl,
    Function.update_noteq (Ne.symm hcl), hv, Option.pure_def]

/-! ### The Watcher (`PathsSource`)

`newPaths` is one poll step of `do_poll`: take a fresh listing as a set,
subtract the in-memory seen-set, and order the result
(`for fn in sorted(new)`). `emitStep` is the loop body: the path is added
to the seen-set and then emitted. `watcherRun` folds poll cycles over a
sequence of listings, starting from the empty seen-set a fresh
`PathsSource` has. -/

/-- One cycle's newly discovered paths, in emission order. -/
def newPaths (listing : List String) (seen : List String) : List String :=
  List.insertionSort (· ≤ ·) ((listing.dedup).filter (fun x => decide (x ∉ seen)))

/-- Seen-set and emission trace of a `PathsSource` during one run. -/
structure WatchState where
  seen : List String
  emitted : List String

/-- Loop body of `do_poll`: `self.seen.add(fn)` followed by
`self._emit(...)`. -/
def emitStep (st : WatchState) (fn : String) : WatchState :=
  { seen := st.seen.insert fn, emitted := st.emitted ++ [fn] }

/-- One poll cycle of `do_poll` against one listing. -/
def pollOnce (st : WatchState) (listing : List String) : WatchState :=
  (newPaths listing st.seen).foldl emitStep st

/-- A whole run: fold the poll cycles over the successive listings,
starting with the empty seen-set of a fresh `PathsSource`. -/
def watcherRun (listings : List (List String)) : WatchState :=
  listings.foldl pollOnce { seen := [], emitted := [] }

theorem newPaths_nodup (listing seen : List String) : (newPaths listing seen).Nodup :=
  (List.perm_insertionSort (· ≤ ·) _).symm.nodup
    ((List.nodup_dedup listing).filter _)

theorem mem_newPaths (x : String) (listing seen : List String) :
    x ∈ newPaths listing seen ↔ x ∈ listing ∧ x ∉ seen := by
  simp [newPaths, List.mem_insertionSort, List.mem_filter, List.mem_dedup]

theorem foldl_emitStep_emitted (l : List String) (st : WatchState) :
    (l.foldl emitStep st).emitted = st.emitted ++ l := by
  induction l generalizing st with
  | nil => simp
  | cons a rest ih =>
    rw [List.foldl_cons, ih]
    simp [emitStep]

theorem mem_foldl_emitStep_seen (x : String) (l : List String) (st : WatchState) :
    x ∈ (l.foldl emitStep st).seen ↔ x ∈ st.seen ∨ x ∈ l := by
  induction l generalizing st with
  | nil => simp
  | cons a rest ih =>
    rw [List.foldl_cons, ih]
    simp [emitStep, List.mem_insert_iff]
    tauto

/-- Invariant of a watcher run: no path has been emitted twice, and every
emitted path has been recorded in the seen-set (it is recorded before the
emission). -/
def WInv (st : WatchState) : Prop :=
  st.emitted.Nodup ∧ ∀ x ∈ st.emitted, x ∈ st.seen

theorem pollOnce_WInv (st : WatchState) (listing : List String) (h : WInv st) :
    WInv (pollOnce st listing) ∧ ∀ x ∈ st.seen, x ∈ (pollOnce st listing).seen := by
  obtain ⟨hnd, hsub⟩ := h
  refine ⟨⟨?_, ?_⟩, ?_⟩
  · rw [pollOnce, foldl_emitStep_emitted]
    refine hnd.append (newPaths_nodup listing st.seen) ?_
    intro x hx hx'
    exact ((mem_newPaths x listing st.seen).mp hx').2 (hsub x hx)
  · intro x hx
    rw [pollOnce, foldl_emitStep_emitted] at hx
    rw [pollOnce, mem_foldl_emitStep_seen]
    rcases List.mem_append.mp hx with h' | h'
    · exact Or.inl (hsub x h')
    · exact Or.inr h'
  · intro x hx
    rw [pollOnce, mem_foldl_emitStep_seen]
    exact Or.inl hx

theorem watcherRun_WInv (listings : List (List String)) : WInv (watcherRun listings) := by
  rw [watcherRun]
  have base : WInv { seen := [], emitted := [] } := ⟨List.nodup_nil, by simp⟩
  generalize hst : ({ seen := [], emitted := [] } : WatchState) = st0
  rw [hst] at base
  clear hst
  induction listings generalizing st0 with
  | nil => exact base
  | cons l rest ih =>
    rw [List.foldl_cons]
    exact ih (pollOnce st0 l) (pollOnce_WInv st0 l base).1

theorem watcherRun_seen_mono (l₁ l₂ : List (List String)) :
    ∀ x ∈ (watcherRun l₁).seen, x ∈ (watcherRun (l₁ ++ l₂)).seen := by
  rw [watcherRun, watcherRun, List.foldl_append]
  generalize List.foldl pollOnce { seen := [], emitted := [] } l₁ = st
  induction l₂ generalizing st with
  | nil => simp
  | cons l rest ih =>
    intro x hx
    rw [List.foldl_cons]
    exact ih (pollOnce st l) x
      (by rw [pollOnce, mem_foldl_emitStep_seen]; exact Or.inl hx)

/-! ### Watcher lifecycle (`PathsSource.start` / the `do_poll` loop)

`WatcherCtl` records the lifecycle phase together with the `self.stopped`
flag. `__init__` sets `stopped = True` with no loop scheduled (`idle`);
`start` sets `stopped = False` and schedules `do_poll` (`running`); at the
end of each poll cycle the loop breaks, permanently, when the flag is
observed set (`stopped`). -/

/-- Lifecycle phase of a `PathsSource`: constructed, polling loop active,
or polling loop exited. -/
inductive WPhase where
  | idle
  | running
  | stopped
deriving DecidableEq

/-- Phase together with the `self.stopped` flag. -/
structure WatcherCtl where
  phase : WPhase
  stoppedFlag : Bool
deriving DecidableEq

/-- State after `__init__`: `self.stopped = True`, no loop scheduled. -/
def watcherInit : WatcherCtl := { phase := WPhase.idle, stoppedFlag := true }

/-- Operations on the lifecycle: `start` is `PathsSource.start`
(`self.stopped = False; self.loop.add_callback(self.do_poll)`);
`requestStop` (modelled from the spec: the external stop request that sets
the flag, supplied by the `streamz` base class outside this repository)
sets `self.stopped = True`; `pollCycleEnd` is the `if self.stopped: break`
check the running loop performs after each cycle's sleep. -/
inductive WOp where
  | start
  | requestStop
  | pollCycleEnd
deriving DecidableEq

/-- Transition function of the watcher lifecycle. -/
def watcherStep (m : WatcherCtl) : WOp → WatcherCtl
  | WOp.start => { phase := WPhase.running, stoppedFlag := false }
  | WOp.requestStop => { m with stoppedFlag := true }
  | WOp.pollCycleEnd =>
      if m.phase = WPhase.running ∧ m.stoppedFlag then
        { m with phase := WPhase.stopped }
      else m

/-! ### The upload pipeline (`do_upload`)

`handleOne` is what one emission triggers: the path is marked seen, the
filter (`check_manifest`) runs, and on `true` the sink (`upload`) runs.
`watchCycleU` is one poll cycle of the composed pipeline; `pipelineRunU`
is a run of `ncycles` poll cycles against the same storage listing,
starting from the fresh empty seen-set. -/

/-- Seen-set of the run's `PathsSource` together with the store. -/
structure RunState where
  store : Store
  seen : List String

/-- Emission of one path through filter and sink in upload mode. -/
def handleOne (dst : String) (rs : RunState) (p : String) : Option RunState :=
  let rs' : RunState := { rs with seen := rs.seen.insert p }
  if check_manifest p rs'.store.manifest then
    (uploadRun p dst rs'.store).map fun st' => { rs' with store := st' }
  else some rs'

/-- One poll cycle of the upload pipeline against one listing. -/
def watchCycleU (dst : String) (listing : List String) (rs : RunState) : Option RunState :=
  (newPaths listing rs.seen).foldlM (handleOne dst) rs

/-- A run of the upload pipeline: `ncycles` poll cycles, each listing the
same storage state `sources`, starting from a fresh seen-set. -/
def pipelineRunU (dst : String) (sources : List String) (ncycles : Nat)
    (st : Store) : Option Store :=
  ((List.replicate ncycles sources).foldlM
      (fun rs listing => watchCycleU dst listing rs)
      { store := st, seen := [] }).map RunState.store

/-! ### Invariant of the upload pipeline -/

/-- Run invariant of the upload pipeline against a fixed storage listing
`sources`: the manifest stores some set `M` of already-handled sources,
every path in the run's seen-set has reached the manifest, and every
source is still present in storage. -/
def PInv (sources : List String) (rs : RunState) : Prop :=
  ∃ M : Finset String, MInv rs.store.manifest M ∧ (∀ x ∈ M, x ∈ sources) ∧
    (∀ x ∈ rs.seen, x ∈ M) ∧ ∀ q ∈ sources, (rs.store.files q).isSome

theorem PInv_contains_of_seen (sources : List String) (rs : RunState)
    (h : PInv sources rs) (x : String) (hx : x ∈ rs.seen) :
    manifestContains rs.store.manifest x = true := by
  obtain ⟨M, hM, -, hseen, -⟩ := h
  rw [MInv_contains rs.store.manifest M x hM]
  simpa using hseen x hx

theorem contains_count (mf : Option String) (M : Finset String) (x : String)
    (hM : MInv mf M) (hx : manifestContains mf x = true) :
    ∃ c, mf = some c ∧ (manifestLines c).count x = 1 := by
  cases mf with
  | none => simp [manifestContains] at hx
  | some c =>
    refine ⟨c, rfl, MInv_count c M x hM ?_⟩
    rw [MInv_contains (some c) M x hM] at hx
    simpa using hx

theorem handleOne_spec (dst : String) (sources : List String) (q : String)
    (rs : RunState) (hq : q ∈ sources) (hnlS : ∀ x ∈ sources, nlFree x)
    (hInv : PInv sources rs) :
    ∃ rs', handleOne dst rs q = some rs' ∧ PInv sources rs' ∧
      (∀ x ∈ rs.seen, x ∈ rs'.seen) ∧ q ∈ rs'.seen ∧
      (∀ x, manifestContains rs.store.manifest x = true →
        manifestContains rs'.store.manifest x = true) := by
  obtain ⟨M, hM, hMs, hseen, hfiles⟩ := hInv
  have hcheck : check_manifest q rs.store.manifest = decide (q ∉ M) :=
    MInv_check rs.store.manifest M q hM
  by_cases hqM : q ∈ M
  · refine ⟨{ rs with seen := rs.seen.insert q }, ?_, ?_, ?_, ?_, ?_⟩
    · simp [handleOne, hcheck, hqM]
    · refine ⟨M, hM, hMs, ?_, hfiles⟩
      intro x hx
      rcases List.mem_insert_iff.mp hx with rfl | hx
      · exact hqM
      · exact hseen x hx
    · intro x hx
      exact List.mem_insert_iff.mpr (Or.inr hx)
    · exact List.mem_insert_iff.mpr (Or.inl rfl)
    · intro x hx
      exact hx
  · rcases Option.isSome_iff_exists.mp (hfiles q hq) with ⟨c, hc⟩
    have hup := uploadRun_eq q dst rs.store c hc
    refine ⟨⟨⟨Function.update rs.store.files (joinPath dst (baseName q)) (some c),
        some (add_to_manifest q rs.store.manifest),
        Function.update rs.store.lfiles (tmpLocal q) (some c)⟩,
        rs.seen.insert q⟩, ?_, ?_, ?_, ?_, ?_⟩
    · simp only [handleOne, hcheck, hqM, not_false_iff, decide_True, if_true, hup,
        Option.map_some']
    · refine ⟨insert q M, ?_, ?_, ?_, ?_⟩
      · exact MInv_add rs.store.manifest M q hM (hnlS q hq)
      · intro x hx
        rcases Finset.mem_insert.mp hx with rfl | hx
        · exact hq
        · exact hMs x hx
      · intro x hx
        rcases List.mem_insert_iff.mp hx with rfl | hx
        · exact Finset.mem_insert_self x M
        · exact Finset.mem_insert_of_mem (hseen x hx)
      · intro r hr
        exact update_some_isSome _ _ _ _ (hfiles r hr)
    · intro x hx
      exact List.mem_insert_iff.mpr (Or.inr hx)
    · exact List.mem_insert_iff.mpr (Or.inl rfl)
    · intro x hx
      exact manifestContains_add_mono x q rs.store.manifest (hnlS q hq) hx

theorem foldHandle_spec (dst : String) (sources : List String) (l : List String)
    (hl : ∀ x ∈ l, x ∈ sources) (hnlS : ∀ x ∈ sources, nlFree x)
    (rs : RunState) (hInv : PInv sources rs) :
    ∃ rs', l.foldlM (handleOne dst) rs = some rs' ∧ PInv sources rs' ∧
      (∀ x ∈ rs.seen, x ∈ rs'.seen) ∧ (∀ x ∈ l, x ∈ rs'.seen) ∧
      (∀ x, manifestContains rs.store.manifest x = true →
        manifestContains rs'.store.manifest x = true) := by
  induction l generalizing rs with
  | nil =>
    exact ⟨rs, by simp [List.foldlM_nil], hInv, fun x hx => hx, by simp,
      fun x hx => hx⟩
  | cons q rest ih =>
    obtain ⟨rs1, h1, hInv1, hmono1, hqseen1, hc1⟩ :=
      handleOne_spec dst sources q rs (hl q (List.mem_cons_self q rest)) hnlS hInv
    obtain ⟨rs', h2, hInv2, hmono2, hrest2, hc2⟩ :=
      ih (fun x hx => hl x (List.mem_cons_of_mem q hx)) rs1 hInv1
    refine ⟨rs', ?_, hInv2, ?_, ?_, ?_⟩
    · rw [List.foldlM_cons, h1, Option.bind_eq_bind, Option.some_bind]
      exact h2
    · intro x hx
      exact hmono2 x (hmono1 x hx)
    · intro x hx
      rcases List.mem_cons.mp hx with rfl | hx
      · exact hmono2 x hqseen1
      · exact hrest2 x hx
    · intro x hx
      exact hc2 x (hc1 x hx)

theorem watchCycleU_spec (dst : String) (sources : List String) (rs : RunState)
    (hnlS : ∀ x ∈ sources, nlFree x) (hInv : PInv sources rs) :
    ∃ rs', watchCycleU dst sources rs = some rs' ∧ PInv sources rs' ∧
      (∀ x ∈ rs.seen, x ∈ rs'.seen) ∧ (∀ x ∈ sources, x ∈ rs'.seen) ∧
      (∀ x, manifestContains rs.store.manifest x = true →
        manifestContains rs'.store.manifest x = true) := by
  obtain ⟨rs', h, hInv', hmono, hnew, hc⟩ :=
    foldHandle_spec dst sources (newPaths sources rs.seen)
      (fun x hx => ((mem_newPaths x sources rs.seen).mp hx).1) hnlS rs hInv
  refine ⟨rs', h, hInv', hmono, ?_, hc⟩
  intro x hx
  by_cases hseen : x ∈ rs.seen
  · exact hmono x hseen
  · exact hnew x ((mem_newPaths x sources rs.seen).mpr ⟨hx, hseen⟩)

theorem cyclesU_spec (dst : String) (sources : List String) (n : Nat)
    (rs : RunState) (hnlS : ∀ x ∈ sources, nlFree x) (hInv : PInv sources rs) :
    ∃ rs', (List.replicate n sources).foldlM
        (fun rs listing => watchCycleU dst listing rs) rs = some rs' ∧
      PInv sources rs' ∧ (∀ x ∈ rs.seen, x ∈ rs'.seen) ∧
      (∀ x, manifestContains rs.store.manifest x = true →
        manifestContains rs'.store.manifest x = true) := by
  induction n generalizing rs with
  | zero =>
    exact ⟨rs, by simp [List.foldlM_nil], hInv, fun x hx => hx, fun x hx => hx⟩
  | succ k ih =>
    obtain ⟨rs1, h1, hInv1, hmono1, -, hc1⟩ := watchCycleU_spec dst sources rs hnlS hInv
    obtain ⟨rs', h2, hInv2, hmono2, hc2⟩ := ih rs1 hInv1
    refine ⟨rs', ?_, hInv2, ?_, ?_⟩
    · rw [List.replicate_succ, List.foldlM_cons, h1, Option.bind_eq_bind,
        Option.some_bind]
      exact h2
    · intro x hx
      exact hmono2 x (hmono1 x hx)
    · intro x hx
      exact hc2 x (hc1 x hx)

/-! ### Manifest write inside `process` -/

theorem processRun_manifest (p : String) (res : CmdResult) (st st' : Store)
    (h : processRun p res st = some st') :
    st'.manifest = some (add_to_manifest p st.manifest) := by
  have hsp : processActions p res =
      [PAction.fsGet p (tmpLocal p), PAction.runCmd (csvLocal p) res] ++
        (PAction.manifestAdd p ::
          [PAction.fsWrite ((splitExt p).fst ++ ".log") res.stdout,
           PAction.fsUpload (csvLocal p) ((splitExt p).fst ++ ".csv"),
           PAction.osRemove (tmpLocal p),
           PAction.osRemove (csvLocal p),
           PAction.fsRm p]) := rfl
  rw [processRun, hsp, List.foldlM_append] at h
  simp only [Option.bind_eq_bind] at h
  rcases Option.bind_eq_some.mp h with ⟨mid, hmid, hrest⟩
  rw [List.foldlM_cons] at hrest
  simp only [applyAction, Option.bind_eq_bind, Option.some_bind] at hrest
  have hconst := foldlM_manifest_const
    [PAction.fsWrite ((splitExt p).fst ++ ".log") res.stdout,
     PAction.fsUpload (csvLocal p) ((splitExt p).fst ++ ".csv"),
     PAction.osRemove (tmpLocal p),
     PAction.osRemove (csvLocal p),
     PAction.fsRm p]
    (by
      intro a ha q
      simp only [List.mem_cons, List.not_mem_nil, or_false] at ha
      rcases ha with rfl | rfl | rfl | rfl | rfl <;> simp)
    _ st' hrest
  rw [hconst]
  have hm2 : mid.manifest = st.manifest := by
    refine foldlM_manifest_const _ ?_ st mid hmid
    intro a ha q
    simp only [List.mem_cons, List.not_mem_nil, or_false] at ha
    rcases ha with rfl | rfl <;> simp
  rw [hm2]

/-- C1 (amended): in the `process` handler, the manifest add strictly
precedes the removal of the remote source — every prefix of the handler's
statement sequence that contains the `fs.rm` of the source also contains
the `add_to_manifest`; consequently, for a path without an embedded
newline, in every state reachable by running a prefix of the handler from
a state where the source exists, if the source artifact has been deleted
then the manifest contains the path. (For a path containing a newline the
deletion happens although `Manifest.Contains` on the written manifest is
false; see the counterexample.) -/
theorem process_add_before_rm (p : String) (res : CmdResult) (st0 st' : Store)
    (n : Nat) (hnl : nlFree p) (hsrc : (st0.files p).isSome)
    (hrun : processRunUpTo p res st0 n = some st') :
    (PAction.fsRm p ∈ (processActions p res).take n →
      PAction.manifestAdd p ∈ (processActions p res).take n)
    ∧ (st'.files p = none → manifestContains st'.manifest p = true) := by
  rcases Nat.lt_or_ge n 8 with hn | hn
  · have h7 : n ≤ 7 := Nat.lt_succ_iff.mp hn
    have hF : processActions p res =
        [PAction.fsGet p (tmpLocal p), PAction.runCmd (csvLocal p) res,
         PAction.manifestAdd p,
         PAction.fsWrite ((splitExt p).fst ++ ".log") res.stdout,
         PAction.fsUpload (csvLocal p) ((splitExt p).fst ++ ".csv"),
         PAction.osRemove (tmpLocal p), PAction.osRemove (csvLocal p)] ++
          [PAction.fsRm p] := rfl
    have htn : (processActions p res).take n =
        ([PAction.fsGet p (tmpLocal p), PAction.runCmd (csvLocal p) res,
          PAction.manifestAdd p,
          PAction.fsWrite ((splitExt p).fst ++ ".log") res.stdout,
          PAction.fsUpload (csvLocal p) ((splitExt p).fst ++ ".csv"),
          PAction.osRemove (tmpLocal p), PAction.osRemove (csvLocal p)]).take n := by
      rw [hF, List.take_append_of_le_length (by simpa using h7)]
    constructor
    · intro hmem
      rw [htn] at hmem
      have := List.take_subset n _ hmem
      simp at this
    · intro hdel
      exfalso
      have hs : (st'.files p).isSome := by
        refine foldlM_files_isSome ((processActions p res).take n) ?_ p st0 st' hrun hsrc
        intro a ha r
        rw [htn] at ha
        have := List.take_subset n _ ha
        simp only [List.mem_cons, List.not_mem_nil, or_false] at this
        rcases this with rfl | rfl | rfl | rfl | rfl | rfl | rfl <;> simp
      rw [hdel] at hs
      exact Bool.noConfusion hs
  · have htake : (processActions p res).take n = processActions p res :=
      List.take_of_length_le (by simpa [processActions] using hn)
    constructor
    · intro _
      rw [htake]
      simp [processActions]
    · intro _
      rw [processRunUpTo, htake] at hrun
      rw [processRun_manifest p res st0 st' hrun]
      exact manifestContains_add_self p st0.manifest hnl

/-- Store for the C1 counterexample: one remote source whose path embeds a
newline, no manifest, empty scratch space. -/
def store1cex : Store :=
  ⟨fun q => if q = "a\nb.mp4" then some "v" else none, none, fun _ => none⟩

/-- C1 counterexample: for the path `"a\nb.mp4"` the `process` handler runs
to completion, the source artifact ends up deleted, and yet
`Manifest.Contains` is false for that path — the serialized manifest holds
the lines `"a"` and `"b.mp4"` instead. So the claimed reachable-state
property "source deleted implies manifest contains the path" fails as
stated for all paths. -/
theorem process_add_before_rm_cex :
    (processRun "a\nb.mp4" ⟨0, "out", "csv"⟩ store1cex).map
      (fun st => (st.files "a\nb.mp4", manifestContains st.manifest "a\nb.mp4"))
      = some (none, false) := by decide

/-- Store for the C1 witness. -/
def store1w : Store :=
  ⟨fun q => if q = "a.mp4" then some "v" else none, none, fun _ => none⟩

/-- Final state of the C1 witness run. -/
def st1w : Store := (processRunUpTo "a.mp4" ⟨2, "o", "c"⟩ store1w 8).getD store1w

theorem process_add_before_rm_w :
    PAction.manifestAdd "a.mp4" ∈ (processActions "a.mp4" ⟨2, "o", "c"⟩).take 8
    ∧ manifestContains st1w.manifest "a.mp4" = true := by
  have h := process_add_before_rm "a.mp4" ⟨2, "o", "c"⟩ store1w st1w 8
    (by decide) (by decide) (by rfl)
  exact ⟨h.1 (by decide), h.2 (by decide)⟩

/-- C3: the `process` handler's behaviour does not depend on the exit
status of the external analysis command (`check=False`, the return code is
never read): the run with exit status `e` equals the run with exit status
`0` — same manifest write, same log and CSV uploads, same cleanup — and
every completed run records the path via `add_to_manifest`. -/
theorem process_ignores_exit (p : String) (e : Int) (out csv : String) (st : Store) :
    processRun p ⟨e, out, csv⟩ st = processRun p ⟨0, out, csv⟩ st
    ∧ ∀ st', processRun p ⟨e, out, csv⟩ st = some st' →
        st'.manifest = some (add_to_manifest p st.manifest) := by
  constructor
  · rfl
  · intro st' h
    exact processRun_manifest p ⟨e, out, csv⟩ st st' h

/-- Store for the C3 witness. -/
def store3w : Store :=
  ⟨fun q => if q = "a.mp4" then some "v" else none, some "x", fun _ => none⟩

/-- Final state of the C3 witness run. -/
def st3w : Store := (processRun "a.mp4" ⟨5, "o", "c"⟩ store3w).getD store3w

theorem process_ignores_exit_w :
    processRun "a.mp4" ⟨5, "o", "c"⟩ store3w = processRun "a.mp4" ⟨0, "o", "c"⟩ store3w
    ∧ st3w.manifest = some (add_to_manifest "a.mp4" store3w.manifest) := by
  have h := process_ignores_exit "a.mp4" 5 "o" "c" store3w
  exact ⟨h.1, h.2 st3w (by rfl)⟩

/-- Store for the C9 counterexample. -/
def store9cex : Store :=
  ⟨fun q => if q = "a.mp4" then some "v" else none, none, fun _ => none⟩

/-- C9 counterexample: the `upload` handler returns with the downloaded
scratch copy still present at `/tmp/a.mp4` — `upload` has no statement
removing its local copy — so the claim that both stage handler variants
remove the local scratch copy before returning is false. -/
theorem scratch_cleanup_cex :
    (uploadRun "a.mp4" "d" store9cex).map (fun st => st.lfiles (tmpLocal "a.mp4"))
      = some (some "v") := by decide

/-- C9 (amended): only the `process` variant cleans the fixed temporary
directory before returning — after a completed `process` invocation both
scratch files (the downloaded copy and the tool's CSV) are gone — while a
completed `upload` invocation leaves its downloaded copy in `/tmp`, so
repeated uploads accumulate scratch files. -/
theorem scratch_cleanup (p dst : String) (res : CmdResult) (st stP stU : Store)
    (c : String) (hsrc : st.files p = some c) (hcl : csvLocal p ≠ tmpLocal p)
    (hP : processRun p res st = some stP) (hU : uploadRun p dst st = some stU) :
    stP.lfiles (tmpLocal p) = none ∧ stP.lfiles (csvLocal p) = none
    ∧ stU.lfiles (tmpLocal p) = some c := by
  rw [processRun_eq p res st c hsrc hcl] at hP
  have hP' := Option.some.inj hP
  rw [uploadRun_eq p dst st c hsrc] at hU
  have hU' := Option.some.inj hU
  have hl : stP.lfiles = Function.update (Function.update (Function.update
      (Function.update st.lfiles (tmpLocal p) (some c))
      (csvLocal p) (some res.csv)) (tmpLocal p) none) (csvLocal p) none := by
    rw [← hP']
  have hu : stU.lfiles = Function.update st.lfiles (tmpLocal p) (some c) := by
    rw [← hU']
  refine ⟨?_, ?_, ?_⟩
  · rw [hl]
    exact (Function.update_noteq (Ne.symm hcl) _ _).trans (Function.update_same _ _ _)
  · rw [hl]
    exact Function.update_same _ _ _
  · rw [hu]
    exact Function.update_same _ _ _

/-- Store for the C9 witness. -/
def store9w : Store :=
  ⟨fun q => if q = "b.mp4" then some "w" else none, none, fun _ => none⟩

/-- Final state of the C9 witness `process` run. -/
def st9P : Store := (processRun "b.mp4" ⟨1, "o", "c"⟩ store9w).getD store9w

/-- Final state of the C9 witness `upload` run. -/
def st9U : Store := (uploadRun "b.mp4" "d" store9w).getD store9w

theorem scratch_cleanup_w :
    st9P.lfiles (tmpLocal "b.mp4") = none ∧ st9P.lfiles (csvLocal "b.mp4") = none
    ∧ st9U.lfiles (tmpLocal "b.mp4") = some "w" :=
  scratch_cleanup "b.mp4" "d" ⟨1, "o", "c"⟩ store9w st9P st9U "w"
    (by decide) (by decide) (by rfl) (by rfl)

/-- C10: the `upload` handler never removes or mutates the remote source
artifact — after a successful `upload(of, dst, manifest)` the source file
is exactly as before at its original location — whereas a completed
`process` run deletes the source; suppression of re-handling in upload
mode therefore rests entirely on the manifest. -/
theorem upload_source_intact (p dst : String) (st stU : Store)
    (hU : uploadRun p dst st = some stU) :
    stU.files p = st.files p
    ∧ ∀ res stP, processRun p res st = some stP → stP.files p = none := by
  constructor
  · rcases uploadRun_src_exists p dst st stU hU with ⟨c, hc⟩
    rw [uploadRun_eq p dst st c hc] at hU
    have hU' := Option.some.inj hU
    subst hU'
    show Function.update st.files (joinPath dst (baseName p)) (some c) p = st.files p
    by_cases hp : p = joinPath dst (baseName p)
    · rw [← hp, Function.update_same, hc]
    · rw [Function.update_noteq hp]
  · intro res stP hP
    have hsp : processActions p res =
        [PAction.fsGet p (tmpLocal p), PAction.runCmd (csvLocal p) res,
         PAction.manifestAdd p,
         PAction.fsWrite ((splitExt p).fst ++ ".log") res.stdout,
         PAction.fsUpload (csvLocal p) ((splitExt p).fst ++ ".csv"),
         PAction.osRemove (tmpLocal p), PAction.osRemove (csvLocal p)] ++
          [PAction.fsRm p] := rfl
    rw [processRun, hsp, List.foldlM_append] at hP
    simp only [Option.bind_eq_bind] at hP
    rcases Option.bind_eq_some.mp hP with ⟨mid, -, hrest⟩
    simp only [List.foldlM_cons, List.foldlM_nil, applyAction, Option.bind_eq_bind,
      Option.pure_def, Option.bind_some] at hrest
    rcases Option.map_eq_some'.mp hrest with ⟨v, -, hv⟩
    rw [← hv]
    show Function.update mid.files p none p = none
    rw [Function.update_same]

/-- Store for the C10 witness. -/
def store10w : Store :=
  ⟨fun q => if q = "s/a.mp4" then some "v" else none, none, fun _ => none⟩

/-- Final state of the C10 witness `upload` run. -/
def st10U : Store := (uploadRun "s/a.mp4" "d" store10w).getD store10w

theorem upload_source_intact_w :
    st10U.files "s/a.mp4" = store10w.files "s/a.mp4"
    ∧ ((processRun "s/a.mp4" ⟨1, "log", "csv"⟩ store10w).getD store10w).files "s/a.mp4"
        = none := by
  have h := upload_source_intact "s/a.mp4" "d" store10w st10U (by rfl)
  exact ⟨h.1, h.2 ⟨1, "log", "csv"⟩ _ (by rfl)⟩

/-- Store for the C2 counterexample. -/
def store2cex : Store :=
  ⟨fun q => if q = "a\nb" then some "v" else none, none, fun _ => none⟩

/-- C2 counterexample: for the source path `"a\nb"` (a path with an
embedded newline), running the upload pipeline twice — one poll cycle each
— against the same storage yields a manifest whose line list counts that
path zero times, not exactly once: the first run serializes the path as
two separate lines, so the filter passes it again and the second run
re-uploads it, and the final manifest even holds duplicate lines. -/
theorem pipeline_idempotent_cex :
    ((pipelineRunU "d" ["a\nb"] 1 store2cex).bind
        (fun st1 => pipelineRunU "d" ["a\nb"] 1 st1)).map
      (fun st2 => st2.manifest.map (fun c => (manifestLines c).count "a\nb"))
      = some (some 0) := by decide

/-- C2 (amended): for source paths free of embedded newlines, running the
upload pipeline twice against the same storage listing — any positive
number of poll cycles in the first run, any number in the second — yields
a manifest that contains each listed path exactly once (one line, no
duplicates). -/
theorem pipeline_idempotent (dst : String) (sources : List String) (st0 : Store)
    (p : String) (n1 n2 : Nat) (hp : p ∈ sources)
    (hnl : ∀ q ∈ sources, nlFree q)
    (hfiles : ∀ q ∈ sources, (st0.files q).isSome)
    (hm0 : st0.manifest = none) (hn1 : 0 < n1) :
    ∃ st1 st2 c, pipelineRunU dst sources n1 st0 = some st1
      ∧ pipelineRunU dst sources n2 st1 = some st2
      ∧ st2.manifest = some c ∧ (manifestLines c).count p = 1 := by
  cases n1 with
  | zero => exact absurd hn1 (by simp)
  | succ k =>
    have hInv0 : PInv sources ⟨st0, []⟩ := by
      refine ⟨∅, ?_, by simp, by simp, hfiles⟩
      show MInv st0.manifest ∅
      rw [hm0]
      exact MInv_none
    obtain ⟨rs1, h1, hInv1, -, hall1, -⟩ :=
      watchCycleU_spec dst sources ⟨st0, []⟩ hnl hInv0
    obtain ⟨rs2, h2, hInv2, hmono2, hc2⟩ := cyclesU_spec dst sources k rs1 hnl hInv1
    have hp2 : p ∈ rs2.seen := hmono2 p (hall1 p hp)
    have hcont2 : manifestContains rs2.store.manifest p = true :=
      PInv_contains_of_seen sources rs2 hInv2 p hp2
    have hrun1 : pipelineRunU dst sources (k + 1) st0 = some rs2.store := by
      rw [pipelineRunU, List.replicate_succ, List.foldlM_cons]
      simp only [Option.bind_eq_bind]
      rw [h1, Option.some_bind, h2, Option.map_some']
    have hInv2' : PInv sources ⟨rs2.store, []⟩ := by
      obtain ⟨M, a, b, -, d⟩ := hInv2
      exact ⟨M, a, b, by simp, d⟩
    obtain ⟨rs3, h3, hInv3, -, hc3⟩ :=
      cyclesU_spec dst sources n2 ⟨rs2.store, []⟩ hnl hInv2'
    have hcont3 : manifestContains rs3.store.manifest p = true := hc3 p hcont2
    obtain ⟨M3, hM3, -, -, -⟩ := hInv3
    obtain ⟨c, hc, hcount⟩ := contains_count rs3.store.manifest M3 p hM3 hcont3
    have hrun2 : pipelineRunU dst sources n2 rs2.store = some rs3.store := by
      rw [pipelineRunU, h3, Option.map_some']
    exact ⟨rs2.store, rs3.store, c, hrun1, hrun2, hc, hcount⟩

/-- Store for the C2 witness. -/
def store2w : Store :=
  ⟨fun q => if q = "a.mp4" then some "v" else none, none, fun _ => none⟩

theorem pipeline_idempotent_w :
    ∃ st1 st2 c, pipelineRunU "d" ["a.mp4"] 1 store2w = some st1
      ∧ pipelineRunU "d" ["a.mp4"] 1 st1 = some st2
      ∧ st2.manifest = some c ∧ (manifestLines c).count "a.mp4" = 1 :=
  pipeline_idempotent "d" ["a.mp4"] store2w "a.mp4" 1 1 (by decide) (by decide)
    (by decide) rfl (by decide)

theorem foldAdds_MInv (ps : List String) (mf : Option String) (M : Finset String)
    (hnl : ∀ q ∈ ps, nlFree q) (hM : MInv mf M) :
    MInv (foldAdds ps mf) (M ∪ ps.toFinset) := by
  induction ps generalizing mf M with
  | nil => simpa [foldAdds] using hM
  | cons q rest ih =>
    have h1 : MInv (some (add_to_manifest q mf)) (insert q M) :=
      MInv_add mf M q hM (hnl q (List.mem_cons_self q rest))
    have h2 := ih (some (add_to_manifest q mf)) (insert q M)
      (fun x hx => hnl x (List.mem_cons_of_mem q hx)) h1
    have heq : insert q M ∪ rest.toFinset = M ∪ (q :: rest).toFinset := by
      rw [List.toFinset_cons, Finset.insert_union, Finset.union_insert]
    rw [← heq]
    exact h2

/-- Store-free form of the C4 counterexample path. -/
theorem manifest_roundtrip_cex :
    foldAdds ["a\nb"] none = some "a\nb"
    ∧ (manifestLines "a\nb").toFinset ≠ (["a\nb"] : List String).toFinset := by
  constructor
  · decide
  · decide

/-- C4 (amended): for a nonempty collection of paths free of embedded
newlines, writing them to an absent manifest through successive
`add_to_manifest` calls and reading the result back as `check_manifest`
reads it (splitting on newlines) yields exactly the written set; the
serialized form is newline-delimited, duplicate-free and sorted
lexicographically. (A path with an embedded newline breaks the round
trip; see the counterexample.) -/
theorem manifest_roundtrip (ps : List String) (hne : ps ≠ [])
    (hnl : ∀ q ∈ ps, nlFree q) :
    ∃ c, foldAdds ps none = some c
      ∧ (manifestLines c).toFinset = ps.toFinset
      ∧ (manifestLines c).Nodup
      ∧ List.Sorted (· ≤ ·) (manifestLines c) := by
  have h := foldAdds_MInv ps none ∅ hnl MInv_none
  rw [Finset.empty_union] at h
  cases hfa : foldAdds ps none with
  | none =>
    rw [hfa] at h
    have : ps.toFinset = ∅ := h
    exact absurd ((List.toFinset_eq_empty_iff ps).mp this) hne
  | some c =>
    rw [hfa] at h
    obtain ⟨hnd, hsort, hts⟩ := h
    exact ⟨c, rfl, hts, hnd, hsort⟩

theorem manifest_roundtrip_w :
    ∃ c, foldAdds ["b", "a", "b"] none = some c
      ∧ (manifestLines c).toFinset = (["b", "a", "b"] : List String).toFinset
      ∧ (manifestLines c).Nodup
      ∧ List.Sorted (· ≤ ·) (manifestLines c) :=
  manifest_roundtrip ["b", "a", "b"] (by decide) (by decide)

/-- C5: the manifest membership test fails open — when the manifest
resource does not exist, `check_manifest` reports the path as not yet
handled (returns `true`, passing the filter). It is a total function of
the resource state, so a missing resource never raises. -/
theorem check_manifest_fails_open (p : String) : check_manifest p none = true := rfl

/-- C6: over any sequence of poll listings, a watcher run emits every path
at most once; the seen-set grows monotonically as further cycles run; and
every emitted path is recorded in the seen-set (it is inserted by the same
loop step, before the emission). -/
theorem watcher_at_most_once (listings l₁ l₂ : List (List String)) (p : String) :
    (watcherRun listings).emitted.count p ≤ 1
    ∧ (∀ x ∈ (watcherRun l₁).seen, x ∈ (watcherRun (l₁ ++ l₂)).seen)
    ∧ (∀ x ∈ (watcherRun listings).emitted, x ∈ (watcherRun listings).seen) := by
  obtain ⟨hnd, hsub⟩ := watcherRun_WInv listings
  exact ⟨List.nodup_iff_count_le_one.mp hnd p, watcherRun_seen_mono l₁ l₂, hsub⟩

theorem watcher_at_most_once_w :
    (watcherRun [["b", "a"], ["a", "c"]]).emitted.count "a" ≤ 1
    ∧ (∀ x ∈ (watcherRun [["a"]]).seen, x ∈ (watcherRun ([["a"]] ++ [["b"]])).seen)
    ∧ (∀ x ∈ (watcherRun [["b", "a"], ["a", "c"]]).emitted,
        x ∈ (watcherRun [["b", "a"], ["a", "c"]]).seen) :=
  watcher_at_most_once [["b", "a"], ["a", "c"]] [["a"]] [["b"]] "a"

/-- C7: the pipeline's filter passes a path exactly when the manifest does
not contain it at the time of the check — `check_manifest` is the boolean
negation of `Manifest.Contains` in every manifest state. -/
theorem filter_iff_not_contains (p : String) (mf : Option String) :
    check_manifest p mf = !(manifestContains mf p) := by
  cases mf with
  | none => rfl
  | some c => simp [check_manifest, manifestContains]

/-- C8 counterexample: a stopped watcher is not single-use — calling
`start` on a watcher whose poll loop has exited (phase `stopped`, flag
set) transitions it back to `running` with the stop flag cleared, so an
operation does leave the `Stopped` state. -/
theorem watcher_stopped_cex :
    (watcherStep { phase := WPhase.stopped, stoppedFlag := true } WOp.start).phase
        = WPhase.running
    ∧ WPhase.running ≠ WPhase.stopped := by
  exact ⟨rfl, by decide⟩

/-- C8 (amended): as long as `start` is not called again, a watcher that
has reached the `Stopped` state stays there — neither a stop request nor
any number of poll-cycle boundary checks leaves `Stopped`; the poll loop
itself never resumes. Only an explicit new `start` call restarts polling. -/
theorem watcher_stopped_terminal (m : WatcherCtl) (ops : List WOp)
    (hstop : m.phase = WPhase.stopped) (hns : WOp.start ∉ ops) :
    (ops.foldl watcherStep m).phase = WPhase.stopped := by
  induction ops generalizing m with
  | nil => exact hstop
  | cons a rest ih =>
    rw [List.mem_cons, not_or] at hns
    rw [List.foldl_cons]
    refine ih (watcherStep m a) ?_ hns.2
    cases a with
    | start => exact absurd rfl (Ne.symm hns.1)
    | requestStop => exact hstop
    | pollCycleEnd =>
      show (if m.phase = WPhase.running ∧ m.stoppedFlag then
          { m with phase := WPhase.stopped } else m).phase = WPhase.stopped
      rw [hstop]
      simp
      exact hstop

theorem watcher_stopped_terminal_w :
    (([WOp.requestStop, WOp.pollCycleEnd]).foldl watcherStep
        { phase := WPhase.stopped, stoppedFlag := true }).phase = WPhase.stopped :=
  watcher_stopped_terminal { phase := WPhase.stopped, stoppedFlag := true }
    [WOp.requestStop, WOp.pollCycleEnd] rfl (by decide)
